import Mathlib

/-!
Verification of the HashTableDataStruct course-catalog program.

The repository ships two variants of the same program: the raw-pointer file
`src/ProjectTwoUniversal.cpp` and the smart-pointer rewrite in
`src/unnamed/part_000`.  The validator, trim, filter and builder code is
identical in both; where the two variants differ (LineParser::split,
DataStructure::insert/remove/inject/getSorted) the embedding below follows the
smart-pointer variant, whose C++ semantics are well defined, and additionally
embeds the raw-pointer variant of `inject` (as `injectPTU`) where a claim is
about behaviour only that variant has (the capacity reset).

Machine integers: all `size_t` arithmetic is modelled on `Nat`.  The only
places where `size_t` wraparound could differ are (a) the hash accumulator,
which stays below `31 * capacity + 255` and hence below `2^64` for every
physically realizable capacity, and (b) `--size` at `size = 0`, which no
theorem below exercises.
-/

/-- The `Course` class: identifier, title and prerequisite identifiers.
Immutable once constructed (all members private, only getters). -/
structure Course where
  name : String
  title : String
  prereqs : List String
deriving DecidableEq

namespace CourseBuilder

/-- The single-quote character (ASCII 39). -/
def singleQuoteChar : Char := Char.ofNat 39

/-- `std::isspace` in the default C locale over ASCII:
space, tab, newline, vertical tab, form feed, carriage return. -/
def isSpaceChar (c : Char) : Bool :=
  c = ' ' || c = '\t' || c = '\n' || c = '\x0b' || c = '\x0c' || c = '\r'

/-- `CourseBuilder::courseNameValidator`: empty strings are rejected; a string
of length 7 passes iff its first 4 characters are alphabetic (`std::isalpha`,
ASCII) and its last 3 are digits (`std::isdigit`); any other length fails. -/
def courseNameValidator (s : String) : Bool :=
  if s.data.isEmpty then false
  else if s.data.length = 7 then
    ((List.range 4).all fun i => (s.data.getD i ' ').isAlpha) &&
    ((List.range' 4 3).all fun i => (s.data.getD i ' ').isDigit)
  else false

/-- `CourseBuilder::courseDataValidator`: non-empty and free of newline,
carriage-return and tab bytes. -/
def courseDataValidator (s : String) : Bool :=
  !s.data.isEmpty && s.data.all fun c => !(c = '\n' || c = '\r' || c = '\t')

/-- `CourseBuilder::trim`: strip leading and trailing `std::isspace`
characters; an all-whitespace input yields the empty string. -/
def trim (s : String) : String :=
  ⟨((s.data.dropWhile isSpaceChar).reverse.dropWhile isSpaceChar).reverse⟩

/-- `CourseBuilder::filter`: drop every double quote, single quote, newline,
carriage-return and tab character, keeping all other bytes. -/
def filter (s : String) : String :=
  ⟨s.data.filter fun c =>
    !(c = '"' || c = singleQuoteChar || c = '\n' || c = '\r' || c = '\t')⟩

/-- `CourseBuilder::builder`: sanitize-then-trim every field, require at least
two fields, validate field 0 as an identifier and field 1 as a title, and keep
exactly the fields at index ≥ 2 that pass the identifier validator as
prerequisites.  (The C++ guards the prerequisite loop with `size() > 2`;
`drop 2` of a shorter list is `[]`, which is the same.) -/
def builder (input : List String) : Option Course :=
  if input.isEmpty then none
  else
    let courseData := input.map fun item => trim (filter item)
    if courseData.length < 2 then none
    else if !courseNameValidator (courseData.getD 0 "") then none
    else if !courseDataValidator (courseData.getD 1 "") then none
    else some
      { name := courseData.getD 0 ""
        title := courseData.getD 1 ""
        prereqs := (courseData.drop 2).filter fun s => courseNameValidator s }

end CourseBuilder

namespace LineParser

/-- The inner scanning loop of `LineParser::split` (smart-pointer variant):
starting at the current position with quote state `(inQuotes, quoteChar)`,
advance until the first occurrence of the delimiter outside a quoted segment
(or the end of input).  A quote character toggles the state: it opens a
segment when none is open, and closes it only when it matches the opening
kind.  Returns the consumed field characters (quotes still included) and the
rest of the input beginning at the delimiter that stopped the scan. -/
def splitScan (delim : Char) (inQuotes : Bool) (quoteChar : Char) :
    List Char → List Char × List Char
  | [] => ([], [])
  | c :: rest =>
    if c = '"' || c = CourseBuilder.singleQuoteChar then
      if !inQuotes then
        let p := splitScan delim true c rest
        (c :: p.1, p.2)
      else if c = quoteChar then
        let p := splitScan delim false (Char.ofNat 0) rest
        (c :: p.1, p.2)
      else
        let p := splitScan delim inQuotes quoteChar rest
        (c :: p.1, p.2)
    else if c = delim && !inQuotes then ([], c :: rest)
    else
      let p := splitScan delim inQuotes quoteChar rest
      (c :: p.1, p.2)

theorem splitScan_snd_length (delim : Char) (inQuotes : Bool) (quoteChar : Char)
    (l : List Char) :
    (splitScan delim inQuotes quoteChar l).2.length ≤ l.length := by
  induction l generalizing inQuotes quoteChar with
  | nil => simp [splitScan]
  | cons c rest ih =>
    simp only [splitScan]
    split
    · split
      · exact Nat.le_succ_of_le (ih _ _)
      · split
        · exact Nat.le_succ_of_le (ih _ _)
        · exact Nat.le_succ_of_le (ih _ _)
    · split
      · simp
      · exact Nat.le_succ_of_le (ih _ _)

/-- The per-field quote filter of `LineParser::split`: remove both double and
single quotes from the extracted substring. -/
def stripQuotes (l : List Char) : List Char :=
  l.filter fun c => !(c = '"' || c = CourseBuilder.singleQuoteChar)

/-- The outer loop of `LineParser::split`: extract one field with `splitScan`,
strip its quotes, step past the delimiter that ended it, coalesce any further
consecutive delimiters, and continue while input remains.  An empty input
yields an empty field list. -/
def splitLoop (delim : Char) (l : List Char) : List String :=
  match h : splitScan delim false (Char.ofNat 0) l with
  | (field, []) =>
    if l.isEmpty then [] else [⟨stripQuotes field⟩]
  | (field, _ :: r) =>
    ⟨stripQuotes field⟩ :: splitLoop delim (r.dropWhile fun c => c = delim)
termination_by l.length
decreasing_by
  have h2 := splitScan_snd_length delim false (Char.ofNat 0) l
  rw [h] at h2
  calc (r.dropWhile fun c => c = delim).length
      ≤ r.length := (List.dropWhile_sublist _).length_le
    _ < l.length := Nat.lt_of_lt_of_le (Nat.lt_succ_self _) h2

/-- `LineParser::split` with a one-character delimiter (the C++ only ever
reads `delimiter[0]`). -/
def split (input : String) (delim : Char) : List String :=
  splitLoop delim input.data

end LineParser

/-- The `DataStructure` hash table state.  `buckets` is the bucket array,
each bucket holding its chain head-first; `size` is the stored entry counter;
`sortedValid` and `sortedCourses` are the `sorted` flag and the cached sorted
view of the smart-pointer variant.  The C++ stores `capacity` as a separate
member that every operation keeps equal to `buckets.size()`; the embedding
derives it from the bucket array (`Table.capacity`). -/
structure Table where
  buckets : List (List Course)
  size : Nat
  sortedValid : Bool
  sortedCourses : List Course
deriving DecidableEq

/-- The `capacity` member (always equal to the bucket-array length). -/
def Table.capacity (t : Table) : Nat := t.buckets.length

/-- All entries currently stored, bucket by bucket, each chain head-first
(the traversal order of `sort` and of `resize`). -/
def Table.entries (t : Table) : List Course := t.buckets.flatten

namespace DataStructure

/-- `DataStructure::hash`: polynomial rolling hash, base 31, reduced modulo
the capacity at every step.  (`static_cast<size_t>(c)` is modelled as the
character code; the `size_t` accumulator cannot wrap for any realizable
capacity since it stays below `31 * capacity + 255`.) -/
def hashKey (capacity : Nat) (key : String) : Nat :=
  key.data.foldl (fun h c => (h * 31 + c.toNat) % capacity) 0

/-- `DataStructure::hash` as a method on the table state. -/
def hash (t : Table) (key : String) : Nat := hashKey t.capacity key

/-- The default constructor `DataStructure()`: capacity 1024, size 0,
empty buckets, `sorted` cache invalid. -/
def mkDefault : Table :=
  { buckets := List.replicate 1024 [], size := 0
    sortedValid := false, sortedCourses := [] }

/-- The overloaded constructor `DataStructure(cap)`: capacity `cap` when it
exceeds 16, else 16. -/
def mkTable (cap : Nat) : Table :=
  { buckets := List.replicate (if 16 < cap then cap else 16) [], size := 0
    sortedValid := false, sortedCourses := [] }

/-- The redistribution loop of `DataStructure::resize`: scatter the given
courses (in old-bucket traversal order) into a fresh bucket array, prepending
each at the bucket selected by the new capacity. -/
def rehash (cap : Nat) (bs : List (List Course)) (cs : List Course) :
    List (List Course) :=
  cs.foldl
    (fun bs c =>
      bs.set (hashKey cap c.name) (c :: bs.getD (hashKey cap c.name) []))
    bs

/-- `DataStructure::resize`: double the capacity, allocate fresh buckets and
reinsert every node at its bucket index under the new capacity.  The node
traversal is bucket 0 .. oldCapacity-1, each chain head to tail — exactly
`entries`.  `size` and the sorted cache are not touched. -/
def resize (t : Table) : Table :=
  { t with buckets := rehash (2 * t.capacity) (List.replicate (2 * t.capacity) []) t.entries }

/-- The duplicate-check loop of the smart-pointer `DataStructure::insert`.
The C++ walks the chain through a *reference* to the bucket slot, so
`currentNode = std::move(currentNode->nextNode)` replaces the bucket head and
destroys the node it just examined.  On a match the loop returns with the
bucket holding the remaining suffix (`some suffix`); if no node matches, the
walk has emptied the bucket (`none`). -/
def insertWalk (key : String) : List Course → Option (List Course)
  | [] => none
  | c :: rest => if c.name = key then some (c :: rest) else insertWalk key rest

/-- The smart-pointer `DataStructure::insert`: a null course is a diagnostic
no-op; a duplicate identifier ends the call right after the walk (the sorted
cache is *not* invalidated on this path); otherwise the new node is placed at
the bucket head (the walk has emptied the bucket first), `size` is
incremented, `resize` runs when `size/capacity > 0.75` (exact rational
comparison; the double comparison agrees on every power-of-two capacity), and
the sorted cache is invalidated. -/
def insert (t : Table) (course : Option Course) : Table :=
  match course with
  | none => t
  | some c =>
    let index := hashKey t.capacity c.name
    match insertWalk c.name (t.buckets.getD index []) with
    | some suffix => { t with buckets := t.buckets.set index suffix }
    | none =>
      let t1 : Table :=
        { t with buckets := t.buckets.set index [c], size := t.size + 1 }
      let t2 := if 3 * t1.capacity < 4 * t1.size then resize t1 else t1
      { t2 with sortedValid := false }

/-- The tail of the `DataStructure::remove` walk, after the head has been
examined.  `previous` is `&currentNode`, but `currentNode` is the bucket-slot
reference itself, so each step destroys the node it just rejected; when a
later node matches, `(*previous)->nextNode = std::move(currentNode->nextNode)`
is a self-move that leaves the matching node in place.  Returns the chain the
bucket ends up holding on a match, or `none` when no node matches (the walk
has then emptied the bucket). -/
def removeTail (key : String) : List Course → Option (List Course)
  | [] => none
  | c :: rest => if c.name = key then some (c :: rest) else removeTail key rest

/-- The smart-pointer `DataStructure::remove`: empty name is a diagnostic
no-op.  A match at the chain head is unlinked correctly (`size` decremented,
cache invalidated).  A match further down leaves the matching node in place
(self-move) after destroying its predecessors, still decrementing `size` and
invalidating the cache.  When nothing matches, the walk has destroyed the
whole chain but the not-found path changes neither `size` nor the cache
flag. -/
def remove (t : Table) (courseName : String) : Table :=
  if courseName = "" then t
  else
    let index := hashKey t.capacity courseName
    match t.buckets.getD index [] with
    | [] => { t with buckets := t.buckets.set index [] }
    | c0 :: cs =>
      if c0.name = courseName then
        { t with buckets := t.buckets.set index cs, size := t.size - 1
                 sortedValid := false }
      else
        match removeTail courseName cs with
        | some chain =>
          { t with buckets := t.buckets.set index chain, size := t.size - 1
                   sortedValid := false }
        | none => { t with buckets := t.buckets.set index [] }

/-- Insertion into a by-name sorted list; `sortByName` below models
`std::sort` with the comparator `a->getName() < b->getName()` (for entry sets
with pairwise distinct names, as the table maintains them, every comparison
sort produces this same list). -/
def insertByName (c : Course) : List Course → List Course
  | [] => [c]
  | d :: rest => if c.name < d.name then c :: d :: rest else d :: insertByName c rest

/-- `DataStructure::sort`'s sorting of the collected entries. -/
def sortByName (l : List Course) : List Course := l.foldr insertByName []

/-- The smart-pointer `DataStructure::getSorted`: return the cached view when
the `sorted` flag is set; otherwise run `sort()` (collect all entries bucket
by bucket, sort by name, cache the result and mark the cache valid). -/
def getSorted (t : Table) : List Course × Table :=
  if t.sortedValid then (t.sortedCourses, t)
  else
    let l := sortByName t.entries
    (l, { t with sortedCourses := l, sortedValid := true })

/-- The chain search of `DataStructure::get` (a plain read through raw
pointers — non-destructive). -/
def findChain (key : String) : List Course → Option Course
  | [] => none
  | c :: rest => if c.name = key then some c else findChain key rest

/-- `DataStructure::get`: an empty name returns null immediately; otherwise
walk the chain of the hashed bucket and return (a copy of) the first course
whose name matches, or null.  The method is `const` and touches no state. -/
def get (t : Table) (courseName : String) : Option Course :=
  if courseName = "" then none
  else findChain courseName (t.buckets.getD (hashKey t.capacity courseName) [])

/-- The duplicate-check loop of the smart-pointer `DataStructure::inject`.
The walk destroys each rejected node exactly as in `insert`, but its match
branch ends in `continue`, which re-tests the unchanged loop condition on the
unchanged node: a match means the while-loop never terminates.  `true` =
a matching name was reached (divergence); `false` = the walk emptied the
bucket without a match. -/
def injectDupCheck (key : String) : List Course → Bool
  | [] => false
  | c :: rest => if c.name = key then true else injectDupCheck key rest

/-- One iteration of the `inject` for-loop: skip a null course; otherwise run
the duplicate walk — `none` means the surrounding call never returns (the
`continue` bug) — and on a clean walk place the course at the (now empty)
bucket head.  `size` is never incremented anywhere in `inject`.  The C++
constructs the node with `std::move(course)` from a `const` reference, which
does not compile; the embedding models the evident intent of transferring the
course in. -/
def injectCourse (t : Table) (course : Option Course) : Option Table :=
  match course with
  | none => some t
  | some c =>
    let index := hashKey t.capacity c.name
    if injectDupCheck c.name (t.buckets.getD index []) then none
    else some { t with buckets := t.buckets.set index [c] }

/-- The `inject` for-loop over the incoming course list. -/
def injectLoop (t : Table) : List (Option Course) → Option Table
  | [] => some t
  | c :: rest =>
    match injectCourse t c with
    | none => none
    | some t1 => injectLoop t1 rest

/-- The smart-pointer `DataStructure::inject`: empty input is a diagnostic
no-op; otherwise the buckets are cleared and re-allocated at the *unchanged*
capacity, `size` is reset to 0, every incoming course is processed by the
for-loop, and finally the sorted cache is invalidated.  `none` models a call
that never returns (duplicate-walk divergence). -/
def inject (t : Table) (newCourses : List (Option Course)) : Option Table :=
  if newCourses.isEmpty then some t
  else
    let t0 : Table :=
      { t with buckets := List.replicate t.capacity [], size := 0 }
    match injectLoop t0 newCourses with
    | none => none
    | some t1 => some { t1 with sortedValid := false }

/-- One iteration of the insertion loop of the raw-pointer variant's
`DataStructure::inject`: skip a null course, walk the chain with a local
cursor (non-destructive) and skip the course when a matching name is found,
else prepend at the bucket head.  `size` is never incremented. -/
def injectPTUStep (cap : Nat) (bs : List (List Course)) (oc : Option Course) :
    List (List Course) :=
  match oc with
  | none => bs
  | some c =>
    let index := hashKey cap c.name
    if (bs.getD index []).any (fun e => e.name = c.name) then bs
    else bs.set index (c :: bs.getD index [])

/-- The raw-pointer variant's `DataStructure::inject`
(`src/ProjectTwoUniversal.cpp` lines 295-346): on non-empty input it destroys
the table, resets `capacity` to the default 1024 — or `2 × incoming count`
when that count exceeds 1024 — and re-inserts each non-null course through
`injectPTUStep`.  After `destroy()` the C++ leaves the stale chain heads in
the bucket vector (reading them is undefined); the embedding models the
evident intent of a fresh empty bucket array at the new capacity. -/
def injectPTU (t : Table) (newCourses : List (Option Course)) : Table :=
  if newCourses.isEmpty then t
  else
    let cap := if 1024 < newCourses.length then 2 * newCourses.length else 1024
    { buckets := newCourses.foldl (injectPTUStep cap) (List.replicate cap [])
      size := 0
      sortedValid := t.sortedValid, sortedCourses := t.sortedCourses }

end DataStructure

namespace DataStructure

theorem getD_set_self {α : Type} (l : List α) (i : Nat) (x d : α)
    (h : i < l.length) : (l.set i x).getD i d = x := by
  induction l generalizing i with
  | nil => simp at h
  | cons b rest ih =>
    cases i with
    | zero => rfl
    | succ i => exact ih i (by simpa using h)

theorem getD_set_ne {α : Type} (l : List α) {i j : Nat} (x d : α)
    (h : i ≠ j) : (l.set i x).getD j d = l.getD j d := by
  induction l generalizing i j with
  | nil => rfl
  | cons b rest ih =>
    cases i with
    | zero =>
      cases j with
      | zero => exact absurd rfl h
      | succ j => rfl
    | succ i =>
      cases j with
      | zero => rfl
      | succ j => exact ih (fun hh => h (by omega))

theorem set_getD_self {α : Type} (l : List α) (i : Nat) (d : α)
    (h : i < l.length) : l.set i (l.getD i d) = l := by
  induction l generalizing i with
  | nil => simp at h
  | cons b rest ih =>
    cases i with
    | zero => rfl
    | succ i => simpa using ih i (by simpa using h)

theorem getD_replicate_nil {α : Type} (n i : Nat) :
    (List.replicate n ([] : List α)).getD i [] = [] := by
  induction n generalizing i with
  | zero => rfl
  | succ n ih =>
    cases i with
    | zero => rfl
    | succ i => exact ih i

theorem mem_getD_flatten {α : Type} (bs : List (List α)) (c : α) :
    c ∈ bs.flatten ↔ ∃ i, c ∈ bs.getD i [] := by
  induction bs with
  | nil =>
    simp only [List.flatten_nil, List.not_mem_nil, false_iff, not_exists]
    intro i
    cases i <;> simp [List.getD]
  | cons b rest ih =>
    simp only [List.flatten_cons, List.mem_append, ih]
    constructor
    · rintro (hb | ⟨i, hi⟩)
      · exact ⟨0, hb⟩
      · exact ⟨i + 1, hi⟩
    · rintro ⟨i, hi⟩
      cases i with
      | zero => exact Or.inl hi
      | succ i => exact Or.inr ⟨i, hi⟩

theorem flatten_set_cons_perm {α : Type} (bs : List (List α)) (i : Nat) (c : α)
    (h : i < bs.length) :
    List.Perm (bs.set i (c :: bs.getD i [])).flatten (c :: bs.flatten) := by
  induction bs generalizing i with
  | nil => simp at h
  | cons b rest ih =>
    cases i with
    | zero => simp
    | succ i =>
      have hp := ih i (by simpa using h)
      simp only [List.set_cons_succ, List.flatten_cons]
      exact (hp.append_left b).trans List.perm_middle

theorem hashKey_lt (cap : Nat) (key : String) (h : 0 < cap) :
    hashKey cap key < cap := by
  suffices hgen : ∀ (l : List Char) (h0 : Nat), h0 < cap →
      l.foldl (fun h c => (h * 31 + c.toNat) % cap) h0 < cap by
    exact hgen key.data 0 h
  intro l
  induction l with
  | nil => intro h0 hh; exact hh
  | cons c rest ih =>
    intro h0 _
    exact ih _ (Nat.mod_lt _ h)

theorem hashKey_double_mod (cap : Nat) (key : String) :
    hashKey (2 * cap) key % cap = hashKey cap key := by
  suffices hgen : ∀ (l : List Char) (h0 : Nat),
      (l.foldl (fun h c => (h * 31 + c.toNat) % (2 * cap)) h0) % cap =
      l.foldl (fun h c => (h * 31 + c.toNat) % cap) (h0 % cap) by
    have := hgen key.data 0
    simpa [hashKey] using this
  intro l
  induction l with
  | nil => intro h0; rfl
  | cons c rest ih =>
    intro h0
    rw [List.foldl_cons, List.foldl_cons, ih]
    congr 1
    rw [Nat.mod_mod_of_dvd _ (dvd_mul_left cap 2)]
    exact (((Nat.mod_modEq h0 cap).mul_right 31).add_right c.toNat).symm

/-- A bucket chain is well formed at index `i` when it is empty or holds a
single course that hashes to `i`.  Every state reachable through the table's
operations keeps all chains in this shape: the walk in `insert` and `inject`
empties a bucket before prepending, and doubling the capacity never sends two
differently-bucketed keys to one bucket (`hashKey_double_mod`). -/
def ChainOk (cap i : Nat) (chain : List Course) : Prop :=
  chain = [] ∨ ∃ c, chain = [c] ∧ hashKey cap c.name = i

/-- Invariants of reachable table states: capacity at least 16 (both
constructors guarantee it and no operation shrinks it), load factor at most
0.75, and every chain empty or a correctly-bucketed singleton. -/
structure Wf (t : Table) : Prop where
  cap16 : 16 ≤ t.capacity
  load : 4 * t.size ≤ 3 * t.capacity
  chains : ∀ i, ChainOk t.capacity i (t.buckets.getD i [])

theorem rehash_cons (cap : Nat) (bs : List (List Course)) (c : Course)
    (cs : List Course) :
    rehash cap bs (c :: cs) =
      rehash cap
        (bs.set (hashKey cap c.name) (c :: bs.getD (hashKey cap c.name) []))
        cs := rfl

theorem rehash_length (cap : Nat) (cs : List Course) :
    ∀ bs : List (List Course), (rehash cap bs cs).length = bs.length := by
  induction cs with
  | nil => intro bs; rfl
  | cons c cs ih =>
    intro bs
    rw [rehash_cons, ih, List.length_set]

theorem rehash_flatten_perm (cap : Nat) (hc : 0 < cap) (cs : List Course) :
    ∀ bs : List (List Course), bs.length = cap →
      List.Perm (rehash cap bs cs).flatten (cs ++ bs.flatten) := by
  induction cs with
  | nil => intro bs _; simp [rehash]
  | cons c cs ih =>
    intro bs hl
    rw [rehash_cons]
    have hi : hashKey cap c.name < bs.length := hl ▸ hashKey_lt cap c.name hc
    have h1 := ih
      (bs.set (hashKey cap c.name) (c :: bs.getD (hashKey cap c.name) []))
      (by rw [List.length_set]; exact hl)
    have h2 := (flatten_set_cons_perm bs (hashKey cap c.name) c hi).append_left cs
    exact h1.trans (h2.trans List.perm_middle)

theorem rehash_chainOk (cap : Nat) (hc : 0 < cap) (cs : List Course) :
    ∀ bs : List (List Course), bs.length = cap →
      (∀ i, ChainOk cap i (bs.getD i [])) →
      (∀ c ∈ cs, bs.getD (hashKey cap c.name) [] = []) →
      cs.Pairwise (fun a b => hashKey cap a.name ≠ hashKey cap b.name) →
      ∀ i, ChainOk cap i ((rehash cap bs cs).getD i []) := by
  induction cs with
  | nil => intro bs _ hch _ _ i; exact hch i
  | cons c cs ih =>
    intro bs hl hch hemp hpw i
    rw [rehash_cons]
    have hj : hashKey cap c.name < bs.length := hl ▸ hashKey_lt cap c.name hc
    rw [List.pairwise_cons] at hpw
    apply ih
    · rw [List.length_set]; exact hl
    · intro i'
      by_cases hij : hashKey cap c.name = i'
      · subst hij
        rw [getD_set_self _ _ _ _ hj, hemp c (List.mem_cons_self c cs)]
        exact Or.inr ⟨c, rfl, rfl⟩
      · rw [getD_set_ne _ _ _ hij]
        exact hch i'
    · intro c' hc'
      have hne : hashKey cap c.name ≠ hashKey cap c'.name := hpw.1 c' hc'
      rw [getD_set_ne _ _ _ hne]
      exact hemp c' (List.mem_cons_of_mem _ hc')
    · exact hpw.2

theorem pairwise_hash_flatten (f : Course → Nat) :
    ∀ (bs : List (List Course)) (off : Nat),
      (∀ i, bs.getD i [] = [] ∨ ∃ c, bs.getD i [] = [c] ∧ f c = off + i) →
      List.Pairwise (fun a b => f a ≠ f b) bs.flatten := by
  intro bs
  induction bs with
  | nil => intro off _; simp
  | cons b rest ih =>
    intro off hch
    have hrest : List.Pairwise (fun a b => f a ≠ f b) rest.flatten := by
      refine ih (off + 1) fun i => ?_
      rcases hch (i + 1) with h | ⟨c, hc, hfc⟩
      · exact Or.inl h
      · exact Or.inr ⟨c, hc, by omega⟩
    have hhead : b = [] ∨ ∃ c, b = [c] ∧ f c = off := by
      simpa using hch 0
    rw [List.flatten_cons, List.pairwise_append]
    refine ⟨?_, hrest, ?_⟩
    · rcases hhead with rfl | ⟨c, rfl, _⟩ <;> simp
    · intro a ha b' hb'
      rcases hhead with rfl | ⟨c, rfl, hfc⟩
      · simp at ha
      · have ha' : a = c := by simpa using ha
        rcases (mem_getD_flatten rest b').mp hb' with ⟨i, hi⟩
        have hch' : rest.getD i [] = [] ∨
            ∃ d, rest.getD i [] = [d] ∧ f d = off + (i + 1) := hch (i + 1)
        rcases hch' with h | ⟨d, hd, hfd⟩
        · rw [h] at hi; simp at hi
        · rw [hd] at hi
          have hb'd : b' = d := by simpa using hi
          subst ha' hb'd
          omega

end DataStructure


namespace DataStructure

theorem entries_hash_pairwise {t : Table} (hw : Wf t) :
    t.entries.Pairwise
      (fun a b => hashKey t.capacity a.name ≠ hashKey t.capacity b.name) := by
  refine pairwise_hash_flatten (fun c => hashKey t.capacity c.name) t.buckets 0 ?_
  intro i
  rcases hw.chains i with h | ⟨c, hc, hhc⟩
  · exact Or.inl h
  · exact Or.inr ⟨c, hc, by simpa using hhc⟩

theorem resize_capacity (t : Table) : (resize t).capacity = 2 * t.capacity := by
  simp [resize, Table.capacity, rehash_length]

theorem resize_size (t : Table) : (resize t).size = t.size := rfl

theorem resize_entries_perm {t : Table} (hc : 0 < t.capacity) :
    List.Perm (resize t).entries t.entries := by
  have h := rehash_flatten_perm (2 * t.capacity) (by omega) t.entries
      (List.replicate (2 * t.capacity) []) (by simp)
  simpa [resize, Table.entries] using h

theorem resize_chains {t : Table} (hcap : 0 < t.capacity)
    (hpw : t.entries.Pairwise
      (fun a b => hashKey t.capacity a.name ≠ hashKey t.capacity b.name)) :
    ∀ i, ChainOk (2 * t.capacity) i ((resize t).buckets.getD i []) := by
  have hpw2 : t.entries.Pairwise
      (fun a b =>
        hashKey (2 * t.capacity) a.name ≠ hashKey (2 * t.capacity) b.name) := by
    refine hpw.imp ?_
    intro a b hne heq
    apply hne
    have h2 := congrArg (fun n => n % t.capacity) heq
    simpa [hashKey_double_mod] using h2
  exact rehash_chainOk (2 * t.capacity) (by omega) t.entries
    (List.replicate (2 * t.capacity) []) (by simp)
    (fun i => Or.inl (getD_replicate_nil _ _))
    (fun c _ => getD_replicate_nil _ _) hpw2

theorem insert_none (t : Table) : insert t none = t := rfl

theorem insert_dup {t : Table} {c : Course} {suffix : List Course}
    (h : insertWalk c.name (t.buckets.getD (hashKey t.capacity c.name) []) =
      some suffix) :
    insert t (some c) =
      { t with buckets := t.buckets.set (hashKey t.capacity c.name) suffix } := by
  simp only [insert, h]

theorem insert_new {t : Table} {c : Course}
    (h : insertWalk c.name (t.buckets.getD (hashKey t.capacity c.name) []) =
      none) :
    insert t (some c) =
      if 3 * t.buckets.length < 4 * (t.size + 1) then
        { resize { t with buckets := t.buckets.set (hashKey t.capacity c.name) [c]
                          size := t.size + 1 } with
          sortedValid := false }
      else
        { t with buckets := t.buckets.set (hashKey t.capacity c.name) [c]
                 size := t.size + 1
                 sortedValid := false } := by
  have h' : insertWalk c.name
      (t.buckets.getD (hashKey t.buckets.length c.name) []) = none := h
  simp only [insert, Table.capacity, List.length_set, h']
  split <;> rfl

theorem wf_insert_new {t : Table} (hw : Wf t) {c : Course}
    (hi : hashKey t.capacity c.name < t.buckets.length)
    (hwres : insertWalk c.name (t.buckets.getD (hashKey t.capacity c.name) []) =
      none) :
    Wf (insert t (some c)) := by
  rw [insert_new hwres]
  have hch1 : ∀ j, ChainOk t.capacity j
      ((t.buckets.set (hashKey t.capacity c.name) [c]).getD j []) := by
    intro j
    by_cases hj : hashKey t.capacity c.name = j
    · subst hj
      rw [getD_set_self _ _ _ _ hi]
      exact Or.inr ⟨c, rfl, rfl⟩
    · rw [getD_set_ne _ _ _ hj]
      exact hw.chains j
  have hc16 := hw.cap16
  have hload := hw.load
  split
  · -- resize branch: the breached table is rehashed at doubled capacity
    set t1 : Table :=
      { t with buckets := t.buckets.set (hashKey t.capacity c.name) [c]
               size := t.size + 1 } with ht1
    have hc1 : t1.capacity = t.capacity := by
      simp [ht1, Table.capacity, List.length_set]
    have hch1' : ∀ j, ChainOk t1.capacity j (t1.buckets.getD j []) := by
      intro j
      rw [hc1]
      exact hch1 j
    have hpw1 : t1.entries.Pairwise
        (fun a b => hashKey t1.capacity a.name ≠ hashKey t1.capacity b.name) := by
      refine pairwise_hash_flatten _ _ 0 ?_
      intro j
      rcases hch1' j with h | ⟨d, hd, hhd⟩
      · exact Or.inl h
      · exact Or.inr ⟨d, hd, by simpa using hhd⟩
    have hcap1 : 0 < t1.capacity := by rw [hc1]; omega
    have hch2 := resize_chains hcap1 hpw1
    refine ⟨?_, ?_, ?_⟩
    · show 16 ≤ (resize t1).capacity
      rw [resize_capacity, hc1]
      omega
    · show 4 * (resize t1).size ≤ 3 * (resize t1).capacity
      rw [resize_capacity, resize_size, hc1]
      have hs1 : t1.size = t.size + 1 := rfl
      rw [hs1]
      omega
    · intro j
      show ChainOk (resize t1).capacity j ((resize t1).buckets.getD j [])
      rw [resize_capacity, hc1]
      have := hch2 j
      rw [hc1] at this
      exact this
  · -- no resize: the threshold is respected
    next hok =>
    refine ⟨?_, ?_, ?_⟩
    · show 16 ≤ (t.buckets.set (hashKey t.capacity c.name) [c]).length
      rw [List.length_set]
      exact hc16
    · show 4 * (t.size + 1) ≤
        3 * (t.buckets.set (hashKey t.capacity c.name) [c]).length
      rw [List.length_set]
      omega
    · intro j
      show ChainOk (t.buckets.set (hashKey t.capacity c.name) [c]).length j _
      have hlen : (t.buckets.set (hashKey t.capacity c.name) [c]).length =
          t.capacity := by rw [List.length_set]; rfl
      rw [hlen]
      exact hch1 j

theorem wf_insert {t : Table} (hw : Wf t) (oc : Option Course) :
    Wf (insert t oc) := by
  cases oc with
  | none => exact hw
  | some c =>
    have hcap : 0 < t.capacity := lt_of_lt_of_le (by norm_num) hw.cap16
    have hi : hashKey t.capacity c.name < t.buckets.length :=
      hashKey_lt _ _ hcap
    rcases hw.chains (hashKey t.capacity c.name) with hnil | ⟨a, ha, hha⟩
    · exact wf_insert_new hw hi (by rw [hnil]; rfl)
    · by_cases hdup : a.name = c.name
      · have hwres : insertWalk c.name
            (t.buckets.getD (hashKey t.capacity c.name) []) = some [a] := by
          rw [ha]
          simp [insertWalk, hdup]
        have heq : insert t (some c) = t := by
          rw [insert_dup hwres, ← ha, set_getD_self _ _ _ hi]
        rw [heq]
        exact hw
      · exact wf_insert_new hw hi (by rw [ha]; simp [insertWalk, hdup])

theorem wf_remove {t : Table} (hw : Wf t) (key : String) :
    Wf (remove t key) := by
  by_cases hk : key = ""
  · subst hk
    exact hw
  · have hcap : 0 < t.capacity := lt_of_lt_of_le (by norm_num) hw.cap16
    have hi : hashKey t.capacity key < t.buckets.length := hashKey_lt _ _ hcap
    have hchset : ∀ b : List Course,
        ChainOk t.capacity (hashKey t.capacity key) b →
        ∀ j, ChainOk t.capacity j
          ((t.buckets.set (hashKey t.capacity key) b).getD j []) := by
      intro b hb j
      by_cases hj : hashKey t.capacity key = j
      · subst hj
        rw [getD_set_self _ _ _ _ hi]
        exact hb
      · rw [getD_set_ne _ _ _ hj]
        exact hw.chains j
    rcases hw.chains (hashKey t.capacity key) with hnil | ⟨a, ha, hha⟩
    · have heq : remove t key =
          { t with buckets := t.buckets.set (hashKey t.capacity key) [] } := by
        simp only [remove, hnil, if_neg hk]
      rw [heq]
      refine ⟨?_, ?_, ?_⟩
      · show 16 ≤ (t.buckets.set (hashKey t.capacity key) []).length
        rw [List.length_set]; exact hw.cap16
      · show 4 * t.size ≤ 3 * (t.buckets.set (hashKey t.capacity key) []).length
        rw [List.length_set]; exact hw.load
      · intro j
        show ChainOk (t.buckets.set (hashKey t.capacity key) []).length j _
        have hlen : (t.buckets.set (hashKey t.capacity key) []).length =
            t.capacity := by rw [List.length_set]; rfl
        rw [hlen]
        exact hchset [] (Or.inl rfl) j
    · by_cases hmatch : a.name = key
      · have heq : remove t key =
            { t with buckets := t.buckets.set (hashKey t.capacity key) []
                     size := t.size - 1, sortedValid := false } := by
          simp only [remove, ha, if_neg hk, if_pos hmatch]
        rw [heq]
        refine ⟨?_, ?_, ?_⟩
        · show 16 ≤ (t.buckets.set (hashKey t.capacity key) []).length
          rw [List.length_set]; exact hw.cap16
        · show 4 * (t.size - 1) ≤
            3 * (t.buckets.set (hashKey t.capacity key) []).length
          rw [List.length_set]
          have hload2 := hw.load
          have hceq : t.capacity = t.buckets.length := rfl
          omega
        · intro j
          show ChainOk (t.buckets.set (hashKey t.capacity key) []).length j _
          have hlen : (t.buckets.set (hashKey t.capacity key) []).length =
              t.capacity := by rw [List.length_set]; rfl
          rw [hlen]
          exact hchset [] (Or.inl rfl) j
      · have heq : remove t key =
            { t with buckets := t.buckets.set (hashKey t.capacity key) [] } := by
          simp only [remove, ha, if_neg hk, if_neg hmatch, removeTail]
        rw [heq]
        refine ⟨?_, ?_, ?_⟩
        · show 16 ≤ (t.buckets.set (hashKey t.capacity key) []).length
          rw [List.length_set]; exact hw.cap16
        · show 4 * t.size ≤ 3 * (t.buckets.set (hashKey t.capacity key) []).length
          rw [List.length_set]; exact hw.load
        · intro j
          show ChainOk (t.buckets.set (hashKey t.capacity key) []).length j _
          have hlen : (t.buckets.set (hashKey t.capacity key) []).length =
              t.capacity := by rw [List.length_set]; rfl
          rw [hlen]
          exact hchset [] (Or.inl rfl) j

theorem wf_injectCourse {t t' : Table} (hw : Wf t) {oc : Option Course}
    (h : injectCourse t oc = some t') : Wf t' := by
  cases oc with
  | none =>
    cases h
    exact hw
  | some c =>
    have hcap : 0 < t.capacity := lt_of_lt_of_le (by norm_num) hw.cap16
    have hi : hashKey t.capacity c.name < t.buckets.length :=
      hashKey_lt _ _ hcap
    simp only [injectCourse] at h
    split at h
    · exact absurd h (by simp)
    · cases h
      refine ⟨?_, ?_, ?_⟩
      · show 16 ≤ (t.buckets.set (hashKey t.capacity c.name) [c]).length
        rw [List.length_set]; exact hw.cap16
      · show 4 * t.size ≤
          3 * (t.buckets.set (hashKey t.capacity c.name) [c]).length
        rw [List.length_set]; exact hw.load
      · intro j
        show ChainOk (t.buckets.set (hashKey t.capacity c.name) [c]).length j _
        have hlen : (t.buckets.set (hashKey t.capacity c.name) [c]).length =
            t.capacity := by rw [List.length_set]; rfl
        rw [hlen]
        by_cases hj : hashKey t.capacity c.name = j
        · subst hj
          rw [getD_set_self _ _ _ _ hi]
          exact Or.inr ⟨c, rfl, rfl⟩
        · rw [getD_set_ne _ _ _ hj]
          exact hw.chains j

theorem wf_injectLoop :
    ∀ (cs : List (Option Course)) {t t' : Table}, Wf t →
      injectLoop t cs = some t' → Wf t' := by
  intro cs
  induction cs with
  | nil =>
    intro t t' hw h
    cases h
    exact hw
  | cons c cs ih =>
    intro t t' hw h
    simp only [injectLoop] at h
    rcases hic : injectCourse t c with _ | t1
    · rw [hic] at h
      exact absurd h (by simp)
    · rw [hic] at h
      exact ih (wf_injectCourse hw hic) h

theorem wf_inject {t t' : Table} (hw : Wf t) {cs : List (Option Course)}
    (h : inject t cs = some t') : Wf t' := by
  by_cases hemp : cs.isEmpty
  · simp only [inject, hemp, if_true] at h
    cases h
    exact hw
  · simp only [inject, hemp, Bool.false_eq_true, if_false] at h
    have hw0 : Wf { t with buckets := List.replicate t.capacity [], size := 0 } := by
      refine ⟨?_, ?_, ?_⟩
      · show 16 ≤ (List.replicate t.capacity ([] : List Course)).length
        rw [List.length_replicate]; exact hw.cap16
      · show 4 * 0 ≤ 3 * (List.replicate t.capacity ([] : List Course)).length
        omega
      · intro j
        exact Or.inl (getD_replicate_nil _ _)
    rcases hl : injectLoop
        { t with buckets := List.replicate t.capacity [], size := 0 } cs
      with _ | t1
    · rw [hl] at h
      exact absurd h (by simp)
    · rw [hl] at h
      cases h
      have h1 := wf_injectLoop cs hw0 hl
      exact ⟨h1.cap16, h1.load, h1.chains⟩

theorem wf_getSorted {t : Table} (hw : Wf t) : Wf (getSorted t).2 := by
  simp only [getSorted]
  split
  · exact hw
  · exact ⟨hw.cap16, hw.load, hw.chains⟩

/-- Table states reachable from a constructor through the public operations
`insert`, `remove`, `inject` (when the call terminates) and `getSorted`. -/
inductive Reachable : Table → Prop
  | base_default : Reachable mkDefault
  | base_custom (cap : Nat) : Reachable (mkTable cap)
  | step_insert {t : Table} (oc : Option Course) :
      Reachable t → Reachable (insert t oc)
  | step_remove {t : Table} (key : String) :
      Reachable t → Reachable (remove t key)
  | step_inject {t t' : Table} (cs : List (Option Course)) :
      Reachable t → inject t cs = some t' → Reachable t'
  | step_sorted {t : Table} : Reachable t → Reachable (getSorted t).2

theorem wf_mkTable (cap : Nat) : Wf (mkTable cap) := by
  refine ⟨?_, ?_, ?_⟩
  · show 16 ≤ (List.replicate (if 16 < cap then cap else 16)
      ([] : List Course)).length
    rw [List.length_replicate]
    split <;> omega
  · show 4 * 0 ≤ 3 * (List.replicate (if 16 < cap then cap else 16)
      ([] : List Course)).length
    omega
  · intro j
    exact Or.inl (getD_replicate_nil _ _)

theorem mkDefault_eq_mkTable : mkDefault = mkTable 1024 := by
  have h : (if 16 < 1024 then 1024 else 16) = 1024 := by norm_num
  unfold mkDefault mkTable
  rw [h]

theorem wf_mkDefault : Wf mkDefault := mkDefault_eq_mkTable ▸ wf_mkTable 1024

/-- Every reachable table state satisfies the structural invariants. -/
theorem reachable_wf {t : Table} (h : Reachable t) : Wf t := by
  induction h with
  | base_default => exact wf_mkDefault
  | base_custom cap => exact wf_mkTable cap
  | step_insert oc _ ih => exact wf_insert ih oc
  | step_remove key _ ih => exact wf_remove ih key
  | step_inject _ _ hinj ih => exact wf_inject ih hinj
  | step_sorted _ ih => exact wf_getSorted ih

end DataStructure

namespace LineParser

theorem splitLoop_eq_nil (delim : Char) {l field : List Char}
    (h : splitScan delim false (Char.ofNat 0) l = (field, [])) :
    splitLoop delim l = if l.isEmpty then [] else [⟨stripQuotes field⟩] := by
  rw [splitLoop]
  split
  · next field2 heq =>
    rw [h] at heq
    cases heq
    rfl
  · next field2 head r heq =>
    rw [h] at heq
    simp at heq

theorem splitLoop_eq_cons (delim : Char) {l field : List Char} {hd : Char}
    {r : List Char}
    (h : splitScan delim false (Char.ofNat 0) l = (field, hd :: r)) :
    splitLoop delim l =
      ⟨stripQuotes field⟩ ::
        splitLoop delim (r.dropWhile fun c => c = delim) := by
  rw [splitLoop]
  split
  · next field2 heq =>
    rw [h] at heq
    simp at heq
  · next field2 head2 r2 heq =>
    rw [h] at heq
    cases heq
    rfl

theorem splitLoop_quotefree (delim : Char) (l : List Char) :
    ∀ f ∈ splitLoop delim l, ∀ ch ∈ f.data,
      ch ≠ '"' ∧ ch ≠ CourseBuilder.singleQuoteChar := by
  induction l using splitLoop.induct delim with
  | case1 x field hscan hemp =>
    intro f hf ch hch
    rw [splitLoop_eq_nil delim hscan, if_pos hemp] at hf
    simp at hf
  | case2 x field hscan hemp =>
    intro f hf ch hch
    rw [splitLoop_eq_nil delim hscan, if_neg hemp] at hf
    have hf1 : f = ⟨stripQuotes field⟩ := by simpa using hf
    subst hf1
    have := List.of_mem_filter hch
    simpa using this
  | case3 x field head r hscan ih =>
    intro f hf ch hch
    rw [splitLoop_eq_cons delim hscan] at hf
    rcases List.mem_cons.mp hf with hf1 | hf1
    · subst hf1
      have := List.of_mem_filter hch
      simpa using this
    · exact ih f hf1 ch hch

end LineParser

namespace CourseBuilder

theorem getD_map_trim_filter (l : List String) :
    ∀ i : Nat, (l.map fun s => trim (filter s)).getD i "" =
      trim (filter (l.getD i "")) := by
  induction l with
  | nil =>
    intro i
    cases i <;> rfl
  | cons a l ih =>
    intro i
    cases i with
    | zero => rfl
    | succ i => exact ih i

end CourseBuilder

namespace DataStructure

theorem wf_bucket_of_mem {t : Table}
    (hch : ∀ i, ChainOk t.capacity i (t.buckets.getD i [])) {c : Course}
    (hc : c ∈ t.entries) :
    t.buckets.getD (hashKey t.capacity c.name) [] = [c] := by
  rcases (mem_getD_flatten t.buckets c).mp hc with ⟨j, hj⟩
  rcases hch j with h | ⟨d, hd, hhd⟩
  · rw [h] at hj
    simp at hj
  · rw [hd] at hj
    have hcd : c = d := by simpa using hj
    subst hcd
    rw [← hhd] at hd
    exact hd

theorem get_mem {t : Table}
    (hch : ∀ i, ChainOk t.capacity i (t.buckets.getD i [])) {c : Course}
    (hc : c ∈ t.entries) (hk : c.name ≠ "") :
    get t c.name = some c := by
  rw [get, if_neg hk, wf_bucket_of_mem hch hc]
  simp [findChain]

theorem insert_fresh_mem {t : Table} (hw : Wf t) {c : Course}
    (hfresh : ∀ e ∈ t.entries, e.name ≠ c.name) :
    c ∈ (insert t (some c)).entries := by
  have hcap : 0 < t.capacity := lt_of_lt_of_le (by norm_num) hw.cap16
  have hi : hashKey t.capacity c.name < t.buckets.length :=
    hashKey_lt _ _ hcap
  have hwalk : insertWalk c.name
      (t.buckets.getD (hashKey t.capacity c.name) []) = none := by
    rcases hw.chains (hashKey t.capacity c.name) with hnil | ⟨a, ha, hha⟩
    · rw [hnil]
      rfl
    · have hamem : a ∈ t.entries :=
        (mem_getD_flatten t.buckets a).mpr
          ⟨hashKey t.capacity c.name, by rw [ha]; simp⟩
      have hne : a.name ≠ c.name := hfresh a hamem
      rw [ha]
      simp [insertWalk, hne]
  rw [insert_new hwalk]
  have hmem1 : c ∈ (t.buckets.set (hashKey t.capacity c.name) [c]).flatten := by
    refine (mem_getD_flatten _ c).mpr ⟨hashKey t.capacity c.name, ?_⟩
    rw [getD_set_self _ _ _ _ hi]
    simp
  split
  · exact (resize_entries_perm (by
      show 0 < (t.buckets.set (hashKey t.capacity c.name) [c]).length
      rw [List.length_set]
      omega)).mem_iff.mpr hmem1
  · exact hmem1

theorem remove_then_get {t : Table} (hw : Wf t) {c : Course}
    (hc : c ∈ t.entries) (hk : c.name ≠ "") :
    get (remove t c.name) c.name = none := by
  have hcap : 0 < t.capacity := lt_of_lt_of_le (by norm_num) hw.cap16
  have hi : hashKey t.capacity c.name < t.buckets.length :=
    hashKey_lt _ _ hcap
  have hb := wf_bucket_of_mem hw.chains hc
  have heq : remove t c.name =
      { t with buckets := t.buckets.set (hashKey t.capacity c.name) []
               size := t.size - 1, sortedValid := false } := by
    simp only [remove, hb, if_neg hk]
    simp
  rw [heq, get, if_neg hk]
  have hlen : (t.buckets.set (hashKey t.capacity c.name) []).length =
      t.buckets.length := List.length_set t.buckets _ _
  show findChain c.name
      ((t.buckets.set (hashKey t.capacity c.name) []).getD
        (hashKey (t.buckets.set (hashKey t.capacity c.name) []).length c.name)
        []) = none
  rw [hlen]
  have hceq : t.buckets.length = t.capacity := rfl
  rw [hceq, getD_set_self _ _ _ _ hi]
  rfl

theorem injectPTUStep_length (cap : Nat) (bs : List (List Course))
    (oc : Option Course) : (injectPTUStep cap bs oc).length = bs.length := by
  cases oc with
  | none => rfl
  | some c =>
    simp only [injectPTUStep]
    split
    · rfl
    · exact List.length_set bs _ _

theorem foldl_injectPTUStep_length (cap : Nat) (cs : List (Option Course)) :
    ∀ bs : List (List Course),
      (cs.foldl (injectPTUStep cap) bs).length = bs.length := by
  induction cs with
  | nil => intro bs; rfl
  | cons oc cs ih =>
    intro bs
    rw [List.foldl_cons, ih, injectPTUStep_length]

theorem injectPTU_capacity (t : Table) {cs : List (Option Course)}
    (h : cs ≠ []) :
    (injectPTU t cs).capacity =
      if 1024 < cs.length then 2 * cs.length else 1024 := by
  have hne : cs.isEmpty = false := by
    cases cs with
    | nil => exact absurd rfl h
    | cons a l => rfl
  rw [injectPTU, if_neg (by simp [hne])]
  show (cs.foldl _ (List.replicate _ [])).length = _
  rw [foldl_injectPTUStep_length, List.length_replicate]

end DataStructure

/-- Sample course with identifier "AAAA000"; at capacity 16 it hashes to
bucket 0 (alternating character sum 48, and 48 mod 16 = 0). -/
def courseA : Course := ⟨"AAAA000", "Title A", []⟩

/-- A second course with the same identifier as `courseA`. -/
def courseA2 : Course := ⟨"AAAA000", "Title A2", []⟩

/-- Sample course with identifier "BBBB000", which also hashes to bucket 0 at
capacity 16 — it collides with `courseA` without sharing its identifier. -/
def courseB : Course := ⟨"BBBB000", "Title B", []⟩

/-- C8: `validateIdentifier` (the source's `courseNameValidator`) returns
true iff the string has length exactly 7, its first 4 characters are ASCII
alphabetic and its last 3 are ASCII digits; every other length or character
composition yields false (the reverse implication of the iff). -/
theorem claim_C8 : ∀ s : String,
    CourseBuilder.courseNameValidator s = true ↔
      (s.data.length = 7 ∧
       (∀ i, i < 4 → (s.data.getD i ' ').isAlpha = true) ∧
       (∀ i, 4 ≤ i → i < 7 → (s.data.getD i ' ').isDigit = true)) := by
  intro s
  rw [CourseBuilder.courseNameValidator]
  by_cases hemp : s.data.isEmpty
  · rw [if_pos hemp]
    have hlen : s.data.length = 0 := by
      rwa [List.isEmpty_iff_length_eq_zero] at hemp
    constructor
    · intro h
      exact absurd h (by simp)
    · rintro ⟨h7, -, -⟩
      omega
  · rw [if_neg hemp]
    by_cases h7 : s.data.length = 7
    · rw [if_pos h7]
      simp only [Bool.and_eq_true, List.all_eq_true, List.mem_range,
        List.mem_range'_1]
      constructor
      · rintro ⟨ha, hd⟩
        exact ⟨h7, fun i hi => ha i hi, fun i h4 h7' => hd i ⟨h4, by omega⟩⟩
      · rintro ⟨-, ha, hd⟩
        exact ⟨fun i hi => ha i hi, fun i hi => hd i hi.1 (by omega)⟩
    · rw [if_neg h7]
      constructor
      · intro h
        exact absurd h (by simp)
      · rintro ⟨h7', -, -⟩
        exact absurd h7' h7

/-- C7: `build` (the source's `builder`) sanitizes then trims every field and
returns no record exactly when fewer than 2 fields remain, when field 0 fails
the identifier validator, or when field 1 fails the text validator; when it
does return a record, the prerequisites are exactly the sanitized fields at
index ≥ 2 that pass the identifier validator — failing ones are dropped
individually without aborting the record. -/
theorem claim_C7 : ∀ input : List String,
    (CourseBuilder.builder input = none ↔
      input.length < 2 ∨
      CourseBuilder.courseNameValidator
        (CourseBuilder.trim (CourseBuilder.filter (input.getD 0 ""))) = false ∨
      CourseBuilder.courseDataValidator
        (CourseBuilder.trim (CourseBuilder.filter (input.getD 1 ""))) = false) ∧
    (∀ r : Course, CourseBuilder.builder input = some r →
      r.name = CourseBuilder.trim (CourseBuilder.filter (input.getD 0 "")) ∧
      r.title = CourseBuilder.trim (CourseBuilder.filter (input.getD 1 "")) ∧
      r.prereqs = ((input.map fun s =>
          CourseBuilder.trim (CourseBuilder.filter s)).drop 2).filter
        (fun s => CourseBuilder.courseNameValidator s)) := by
  intro input
  by_cases hinp : input.isEmpty
  · have h0 : input = [] := List.isEmpty_iff.mp hinp
    subst h0
    refine ⟨?_, ?_⟩
    · simp [CourseBuilder.builder]
    · intro r hr
      simp [CourseBuilder.builder] at hr
  · simp only [CourseBuilder.builder, if_neg hinp, List.length_map,
      CourseBuilder.getD_map_trim_filter, Bool.not_eq_true']
    by_cases hlen : input.length < 2
    · rw [if_pos hlen]
      refine ⟨?_, ?_⟩
      · simp [hlen]
      · intro r hr
        exact absurd hr (by simp)
    · rw [if_neg hlen]
      by_cases hname : CourseBuilder.courseNameValidator
          (CourseBuilder.trim (CourseBuilder.filter (input.getD 0 ""))) = false
      · rw [if_pos hname]
        refine ⟨?_, ?_⟩
        · exact ⟨fun _ => Or.inr (Or.inl hname), fun _ => rfl⟩
        · intro r hr
          exact absurd hr (by simp)
      · rw [if_neg hname]
        by_cases hdata : CourseBuilder.courseDataValidator
            (CourseBuilder.trim (CourseBuilder.filter (input.getD 1 ""))) = false
        · rw [if_pos hdata]
          refine ⟨?_, ?_⟩
          · exact ⟨fun _ => Or.inr (Or.inr hdata), fun _ => rfl⟩
          · intro r hr
            exact absurd hr (by simp)
        · rw [if_neg hdata]
          refine ⟨?_, ?_⟩
          · constructor
            · intro h
              exact absurd h (by simp)
            · rintro (h | h | h)
              · exact absurd h hlen
              · exact absurd h hname
              · exact absurd h hdata
          · intro r hr
            have hr2 := Option.some.inj hr
            subst hr2
            exact ⟨rfl, rfl, rfl⟩

/-- C7 witness: a concrete four-field input where the third field is a valid
prerequisite and the fourth is dropped, instantiating the record branch of
`claim_C7`. -/
theorem claim_C7_witness :
    CourseBuilder.builder ["CSCS101", "Intro to CS", "MATH101", "bad"] =
      some ⟨"CSCS101", "Intro to CS", ["MATH101"]⟩ ∧
    (⟨"CSCS101", "Intro to CS", ["MATH101"]⟩ : Course).prereqs =
      ((["CSCS101", "Intro to CS", "MATH101", "bad"].map fun s =>
          CourseBuilder.trim (CourseBuilder.filter s)).drop 2).filter
        (fun s => CourseBuilder.courseNameValidator s) :=
  ⟨by decide,
    ((claim_C7 ["CSCS101", "Intro to CS", "MATH101", "bad"]).2
      ⟨"CSCS101", "Intro to CS", ["MATH101"]⟩ (by decide)).2.2⟩

/-- C5: `LineParser::split` treats the delimiter as a separator only outside
quoted segments and strips the quote characters from every produced field:
splitting `CS10101,"Intro, to CS",` on a comma yields exactly
`["CS10101", "Intro, to CS"]` — the comma inside the quotes is preserved in
the second field and the quotes are stripped — and, in general, no field that
`split` produces contains a double- or single-quote character. -/
theorem claim_C5 :
    LineParser.split "CS10101,\"Intro, to CS\"," ',' =
      ["CS10101", "Intro, to CS"] ∧
    (∀ (input : String) (delim : Char), ∀ f ∈ LineParser.split input delim,
      ∀ ch ∈ f.data, ch ≠ '"' ∧ ch ≠ CourseBuilder.singleQuoteChar) := by
  constructor
  · show LineParser.splitLoop ',' ("CS10101,\"Intro, to CS\",".data) = _
    rw [LineParser.splitLoop_eq_cons ','
      (show LineParser.splitScan ',' false (Char.ofNat 0)
          ("CS10101,\"Intro, to CS\",".data) =
        ("CS10101".data, ',' :: "\"Intro, to CS\",".data) by decide)]
    have hd1 : (("\"Intro, to CS\",".data).dropWhile fun c => c = ',') =
        "\"Intro, to CS\",".data := by decide
    rw [hd1]
    rw [LineParser.splitLoop_eq_cons ','
      (show LineParser.splitScan ',' false (Char.ofNat 0)
          ("\"Intro, to CS\",".data) =
        ("\"Intro, to CS\"".data, [','] ) by decide)]
    have hd2 : (([] : List Char).dropWhile fun c => c = ',') = [] := rfl
    rw [hd2]
    rw [LineParser.splitLoop_eq_nil ','
      (show LineParser.splitScan ',' false (Char.ofNat 0) ([] : List Char) =
        ([], []) from rfl)]
    decide
  · intro input delim
    exact LineParser.splitLoop_quotefree delim input.data

/-- C5 witness: the general no-quotes conjunct of `claim_C5` instantiated at
the example line, its second field, and the character I of that field. -/
theorem claim_C5_witness :
    ("Intro, to CS" ∈ LineParser.split "CS10101,\"Intro, to CS\"," ',') ∧
    ('I' ∈ ("Intro, to CS" : String).data) ∧
    ('I' ≠ '"' ∧ 'I' ≠ CourseBuilder.singleQuoteChar) :=
  ⟨claim_C5.1 ▸ (by decide), by decide,
    claim_C5.2 "CS10101,\"Intro, to CS\"," ',' "Intro, to CS"
      (claim_C5.1 ▸ (by decide)) 'I' (by decide)⟩

/-- C3: at every reachable table state, inserting a record whose identifier
is already present is rejected and leaves the table exactly unchanged (the
original entry, not the new record, remains — last writer does not win), and
inserting an absent (null) record is a no-op.  In every reachable state each
chain holds at most one entry (`reachable_wf`), so the duplicate is always
found at the chain head and the destructive reference-walk of the
smart-pointer `insert` destroys nothing. -/
theorem claim_C3 : ∀ t : Table, DataStructure.Reachable t →
    (∀ c : Course, (∃ e ∈ t.entries, e.name = c.name) →
      DataStructure.insert t (some c) = t) ∧
    DataStructure.insert t none = t := by
  intro t hr
  have hw := DataStructure.reachable_wf hr
  refine ⟨?_, rfl⟩
  rintro c ⟨e, he, hname⟩
  have hcap : 0 < t.capacity := lt_of_lt_of_le (by norm_num) hw.cap16
  have hi : DataStructure.hashKey t.capacity c.name < t.buckets.length :=
    DataStructure.hashKey_lt _ _ hcap
  have hb := DataStructure.wf_bucket_of_mem hw.chains he
  rw [hname] at hb
  have hwalk : DataStructure.insertWalk c.name
      (t.buckets.getD (DataStructure.hashKey t.capacity c.name) []) =
        some [e] := by
    rw [hb]
    simp [DataStructure.insertWalk, hname]
  rw [DataStructure.insert_dup hwalk, ← hb,
    DataStructure.set_getD_self _ _ _ hi]

/-- C3 witness: inserting a record with the identifier of a stored entry into
a concrete one-entry table is the identity. -/
theorem claim_C3_witness :
    (∃ e ∈ (DataStructure.insert (DataStructure.mkTable 16)
        (some courseA)).entries, e.name = courseA2.name) ∧
    DataStructure.insert
        (DataStructure.insert (DataStructure.mkTable 16) (some courseA))
        (some courseA2) =
      DataStructure.insert (DataStructure.mkTable 16) (some courseA) :=
  ⟨by decide,
    (claim_C3 (DataStructure.insert (DataStructure.mkTable 16) (some courseA))
      (DataStructure.Reachable.step_insert (some courseA)
        (DataStructure.Reachable.base_custom 16))).1 courseA2 (by decide)⟩

/-- C10: at every reachable table state the capacity is positive and
`hash(key)` is strictly below the capacity for every key string, the empty
string included, so the bucket index used by insert, remove and lookup is
always within the bounds of the bucket array. -/
theorem claim_C10 : ∀ t : Table, DataStructure.Reachable t →
    0 < t.capacity ∧
    ∀ key : String, DataStructure.hash t key < t.buckets.length := by
  intro t hr
  have hw := DataStructure.reachable_wf hr
  have hcap : 0 < t.capacity := lt_of_lt_of_le (by norm_num) hw.cap16
  exact ⟨hcap, fun key => DataStructure.hashKey_lt _ _ hcap⟩

/-- C10 witness: the bound instantiated at a fresh custom-capacity table for
the empty key and a regular key. -/
theorem claim_C10_witness :
    0 < (DataStructure.mkTable 16).capacity ∧
    DataStructure.hash (DataStructure.mkTable 16) "" <
      (DataStructure.mkTable 16).buckets.length ∧
    DataStructure.hash (DataStructure.mkTable 16) "CSCS101" <
      (DataStructure.mkTable 16).buckets.length :=
  ⟨(claim_C10 (DataStructure.mkTable 16)
      (DataStructure.Reachable.base_custom 16)).1,
   (claim_C10 (DataStructure.mkTable 16)
      (DataStructure.Reachable.base_custom 16)).2 "",
   (claim_C10 (DataStructure.mkTable 16)
      (DataStructure.Reachable.base_custom 16)).2 "CSCS101"⟩

/-- C2: (1) for every sequence of insert operations starting from a freshly
default-constructed table, after each insert `size/capacity ≤ 0.75` holds,
stated exactly as `4·size ≤ 3·capacity` ("after each insert" is covered
because every prefix of a sequence is itself a sequence); (2) the resize is a
capacity doubling and a full rehash preserving the multiset of stored
entries; (3) an insert changes the capacity — that is, triggers the resize —
exactly when the record is actually linked in (no duplicate) and the
incremented size would breach the 0.75 threshold. -/
theorem claim_C2 :
    (∀ ops : List (Option Course),
      4 * (ops.foldl DataStructure.insert DataStructure.mkDefault).size ≤
        3 * (ops.foldl DataStructure.insert DataStructure.mkDefault).capacity) ∧
    (∀ t : Table, 0 < t.capacity →
      List.Perm (DataStructure.resize t).entries t.entries ∧
      (DataStructure.resize t).capacity = 2 * t.capacity) ∧
    (∀ (t : Table) (c : Course), 0 < t.capacity →
      ((DataStructure.insert t (some c)).capacity ≠ t.capacity ↔
        (DataStructure.insertWalk c.name
            (t.buckets.getD (DataStructure.hashKey t.capacity c.name) []) =
          none ∧
         3 * t.capacity < 4 * (t.size + 1)))) := by
  refine ⟨?_, ?_, ?_⟩
  · intro ops
    have hgen : ∀ (ops2 : List (Option Course)) (t : Table),
        DataStructure.Reachable t →
        DataStructure.Reachable (ops2.foldl DataStructure.insert t) := by
      intro ops2
      induction ops2 with
      | nil => intro t ht; exact ht
      | cons op ops2 ih =>
        intro t ht
        exact ih _ (DataStructure.Reachable.step_insert op ht)
    exact (DataStructure.reachable_wf
      (hgen ops DataStructure.mkDefault
        DataStructure.Reachable.base_default)).load
  · intro t hc
    exact ⟨DataStructure.resize_entries_perm hc, DataStructure.resize_capacity t⟩
  · intro t c hc
    rcases hwres : DataStructure.insertWalk c.name
        (t.buckets.getD (DataStructure.hashKey t.capacity c.name) [])
      with _ | suffix
    · rw [DataStructure.insert_new hwres]
      have hceq : t.buckets.length = t.capacity := rfl
      split
      · next hbr =>
        have hcapr :
            ({ DataStructure.resize { t with
                  buckets := t.buckets.set
                    (DataStructure.hashKey t.capacity c.name) [c]
                  size := t.size + 1 } with
                sortedValid := false } : Table).capacity = 2 * t.capacity := by
          show (DataStructure.resize _).capacity = 2 * t.capacity
          rw [DataStructure.resize_capacity]
          show 2 * (t.buckets.set
            (DataStructure.hashKey t.capacity c.name) [c]).length =
              2 * t.capacity
          rw [List.length_set]
          rfl
        constructor
        · intro _
          exact ⟨rfl, by omega⟩
        · intro _
          rw [hcapr]
          omega
      · next hok =>
        have hcapn :
            ({ t with
                buckets :=
                  t.buckets.set (DataStructure.hashKey t.capacity c.name) [c],
                size := t.size + 1,
                sortedValid := false } : Table).capacity = t.capacity := by
          show (t.buckets.set
            (DataStructure.hashKey t.capacity c.name) [c]).length = t.capacity
          rw [List.length_set]
          rfl
        constructor
        · intro h
          exact absurd hcapn h
        · rintro ⟨-, hbr⟩
          exact absurd (by omega : 3 * t.buckets.length < 4 * (t.size + 1)) hok
    · rw [DataStructure.insert_dup hwres]
      have hcapd :
          ({ t with
              buckets :=
                t.buckets.set (DataStructure.hashKey t.capacity c.name)
                  suffix } : Table).capacity = t.capacity := by
        show (t.buckets.set
          (DataStructure.hashKey t.capacity c.name) suffix).length = t.capacity
        rw [List.length_set]
        rfl
      constructor
      · intro h
        exact absurd hcapd h
      · rintro ⟨hnone, -⟩
        exact absurd hnone (by simp)

/-- C2 witness: the load-factor bound after one insert from the default
constructor, and the resize conjuncts of `claim_C2` discharged at a concrete
16-bucket table. -/
theorem claim_C2_witness :
    (4 * ([some courseA].foldl DataStructure.insert
        DataStructure.mkDefault).size ≤
      3 * ([some courseA].foldl DataStructure.insert
        DataStructure.mkDefault).capacity) ∧
    0 < (DataStructure.mkTable 16).capacity ∧
    List.Perm (DataStructure.resize (DataStructure.mkTable 16)).entries
      (DataStructure.mkTable 16).entries ∧
    (DataStructure.resize (DataStructure.mkTable 16)).capacity =
      2 * (DataStructure.mkTable 16).capacity :=
  ⟨claim_C2.1 [some courseA], by decide,
    (claim_C2.2.1 (DataStructure.mkTable 16) (by decide)).1,
    (claim_C2.2.1 (DataStructure.mkTable 16) (by decide)).2⟩

/-- C6 counterexample: the claim quantifies over every record whose
identifier is not yet present, but for a record whose identifier is the empty
string — absent from a fresh table — `get` returns null by its explicit
empty-name guard instead of the inserted record, so insert-then-lookup does
not return the record. -/
theorem claim_C6_cex :
    (∀ e ∈ (DataStructure.mkTable 16).entries, e.name ≠ "") ∧
    DataStructure.get
        (DataStructure.insert (DataStructure.mkTable 16)
          (some ⟨"", "EmptyId", []⟩)) "" ≠
      some ⟨"", "EmptyId", []⟩ := by
  decide

/-- C6 (amended): at every reachable table state, for every record with a
NON-EMPTY identifier that is not yet present, inserting the record and then
looking up its identifier returns the (equal, copied) record, and removing
that identifier afterwards makes the lookup return not-found.  Lookup itself
(`get`) is a `const` read embedded as a pure function of the state, so it
mutates nothing by construction. -/
theorem claim_C6 : ∀ t : Table, DataStructure.Reachable t → ∀ c : Course,
    c.name ≠ "" → (∀ e ∈ t.entries, e.name ≠ c.name) →
    DataStructure.get (DataStructure.insert t (some c)) c.name = some c ∧
    DataStructure.get
      (DataStructure.remove (DataStructure.insert t (some c)) c.name)
      c.name = none := by
  intro t hr c hk hfresh
  have hw := DataStructure.reachable_wf hr
  have hw2 := DataStructure.wf_insert hw (some c)
  have hmem : c ∈ (DataStructure.insert t (some c)).entries :=
    DataStructure.insert_fresh_mem hw hfresh
  exact ⟨DataStructure.get_mem hw2.chains hmem hk,
    DataStructure.remove_then_get hw2 hmem hk⟩

/-- C6 witness: the amended round trip at a fresh 16-bucket table and a
concrete course. -/
theorem claim_C6_witness :
    (("CSCS101" : String) ≠ "") ∧
    (∀ e ∈ (DataStructure.mkTable 16).entries, e.name ≠ "CSCS101") ∧
    (DataStructure.get
        (DataStructure.insert (DataStructure.mkTable 16)
          (some ⟨"CSCS101", "Intro", []⟩)) "CSCS101" =
      some ⟨"CSCS101", "Intro", []⟩ ∧
     DataStructure.get
        (DataStructure.remove
          (DataStructure.insert (DataStructure.mkTable 16)
            (some ⟨"CSCS101", "Intro", []⟩)) "CSCS101") "CSCS101" = none) :=
  ⟨by decide, by decide,
    claim_C6 (DataStructure.mkTable 16)
      (DataStructure.Reachable.base_custom 16) ⟨"CSCS101", "Intro", []⟩
      (by decide) (by decide)⟩

/-- C1: the smart-pointer `inject` violates atomic first-occurrence
deduplication on concrete inputs.  (i) On empty input the table is unchanged
(this part of the claim holds).  (ii) Injecting two courses with distinct
identifiers that share a bucket (capacity 16: "AAAA000" and "BBBB000" both
hash to 0) loses the first course: the duplicate-check walk destroys the
already-inserted node, so the table ends with `[courseB]` instead of both.
(iii) Injecting a batch that contains a genuine duplicate identifier makes
the duplicate branch hit `continue` without advancing the cursor: the
while-loop never terminates, modelled as `none`. -/
theorem claim_C1 :
    DataStructure.inject
        (DataStructure.insert (DataStructure.mkTable 16) (some courseA)) [] =
      some (DataStructure.insert (DataStructure.mkTable 16) (some courseA)) ∧
    (DataStructure.inject (DataStructure.mkTable 16)
        [some courseA, some courseB]).map Table.entries = some [courseB] ∧
    DataStructure.inject (DataStructure.mkTable 16)
        [some courseA, some courseA2] = none := by
  decide

/-- C4: a stale read of the cached sorted view after a mutation.  Insert
"AAAA000" into a 16-bucket table, read `getSorted` (caching `[courseA]` and
marking the cache valid), then call `remove` with the absent identifier
"BBBB000", which hashes to the same bucket: the not-found walk destroys the
`courseA` node but neither decrements `size` nor invalidates the cache.  The
next `getSorted` returns the cached `[courseA]` while the table's entries are
`[]` — the view does not contain exactly the current entries. -/
theorem claim_C4 :
    (DataStructure.getSorted
        (DataStructure.remove
          (DataStructure.getSorted
            (DataStructure.insert (DataStructure.mkTable 16)
              (some courseA))).2 "BBBB000")).1 = [courseA] ∧
    (DataStructure.remove
        (DataStructure.getSorted
          (DataStructure.insert (DataStructure.mkTable 16)
            (some courseA))).2 "BBBB000").entries = [] ∧
    (DataStructure.remove
        (DataStructure.getSorted
          (DataStructure.insert (DataStructure.mkTable 16)
            (some courseA))).2 "BBBB000").sortedValid = true := by
  decide

/-- C9 counterexample: for 600 incoming records the claimed formula
`max(default, 2 × count)` gives 1200, but the raw-pointer `inject` resets the
capacity to 1024 — it only applies the doubling when the count strictly
exceeds the 1024 baseline. -/
theorem claim_C9_cex :
    (DataStructure.injectPTU (DataStructure.mkTable 16)
        (List.replicate 600 (none : Option Course))).capacity = 1024 ∧
    (DataStructure.injectPTU (DataStructure.mkTable 16)
        (List.replicate 600 (none : Option Course))).capacity ≠
      max 1024
        (2 * (List.replicate 600 (none : Option Course)).length) := by
  have hne : List.replicate 600 (none : Option Course) ≠ [] := by
    intro h
    have h2 := congrArg List.length h
    rw [List.length_replicate, List.length_nil] at h2
    omega
  have h1 := DataStructure.injectPTU_capacity (DataStructure.mkTable 16) hne
  rw [List.length_replicate] at h1
  norm_num at h1
  refine ⟨h1, ?_⟩
  rw [h1, List.length_replicate]
  norm_num

/-- C9 (amended): for every table state and non-empty incoming sequence, the
capacity after the raw-pointer `inject`'s reset step equals `2 × count` when
the count strictly exceeds the default baseline 1024 and the baseline 1024
otherwise; the claimed formula `max(1024, 2 × count)` agrees with the code
exactly when the count is at most 512 or exceeds 1024. -/
theorem claim_C9 : ∀ (t : Table) (cs : List (Option Course)), cs ≠ [] →
    (DataStructure.injectPTU t cs).capacity =
      (if 1024 < cs.length then 2 * cs.length else 1024) ∧
    ((DataStructure.injectPTU t cs).capacity = max 1024 (2 * cs.length) ↔
      cs.length ≤ 512 ∨ 1024 < cs.length) := by
  intro t cs h
  have h1 := DataStructure.injectPTU_capacity t h
  refine ⟨h1, ?_⟩
  rw [h1]
  by_cases hgt : 1024 < cs.length
  · rw [if_pos hgt]
    constructor
    · intro _
      exact Or.inr hgt
    · intro _
      omega
  · rw [if_neg hgt]
    constructor
    · intro hm
      left
      omega
    · rintro (hd | hd)
      · omega
      · exact absurd hd hgt

/-- C9 witness: the amended capacity rule at a concrete one-element input
(count 1 ≤ 1024, so the capacity is reset to the baseline 1024). -/
theorem claim_C9_witness :
    ([some courseA] ≠ ([] : List (Option Course))) ∧
    (DataStructure.injectPTU (DataStructure.mkTable 16)
        [some courseA]).capacity =
      (if 1024 < ([some courseA] : List (Option Course)).length then
        2 * ([some courseA] : List (Option Course)).length else 1024) :=
  ⟨by decide,
    (claim_C9 (DataStructure.mkTable 16) [some courseA] (by decide)).1⟩

/-- C8 witness: the characterization applied to a concrete valid identifier,
with the right-hand side discharged by evaluation. -/
theorem claim_C8_witness :
    CourseBuilder.courseNameValidator "CSCS101" = true :=
  (claim_C8 "CSCS101").mpr (by decide)
